import Mathlib

/-!
Verification of the capability-protocol resolution engine of the
first-class-protocols proposal, together with the concrete protocol
consumers shipped in the repository (the array monad hierarchy and the
Maybe type from src/index.js and src/examples).

The repository ships no executable engine: src holds the README
description of the engine and sweet.js example sketches.  The engine
definitions below are therefore modelled from the specification
(sections 3, 4.2, 4.3, 4.4 and 6), as are the two derived minimal
implementations whose bodies the README elides.  The array and Maybe
member functions are translated directly from src/index.js.
-/

namespace Protocols

/-- A member token.  Modelled from the spec (section 3): an opaque,
globally unique identifier, comparable by identity; concrete test
runs mint distinct naturals. -/
abbrev Token := Nat

/-- Identity of a target type (spec section 3: type identity used as
half of a Coherence Ledger key). -/
abbrev TypeId := Nat

/-- Modelled from the spec (section 3): a member spec is a token plus
an instance-or-static flag (true means static). -/
structure MSpec where
  tok : Token
  isStatic : Bool
deriving DecidableEq

/-- Modelled from the spec (section 3): a ProtocolDef is immutable once
registered and carries a diagnostic name, an ordered set of parent
protocol definitions, required member specs and provided member specs
(each provided spec bundles a behavior of type F).  Protocols are
finite terms, so the parent graph is acyclic by construction. -/
inductive Protocol (F : Type) where
  | mk (pid : Nat) (name : String) (parents : List (Protocol F))
       (required : List MSpec) (provided : List (MSpec × F))

/-- The registry identity of a protocol definition (spec section 3:
name is diagnostic only, identity is the definition itself; the pid
stands for that identity in ledger keys). -/
def Protocol.pid {F : Type} : Protocol F → Nat
  | .mk i _ _ _ _ => i

/-- The declared (own, not inherited) required member specs. -/
def Protocol.required {F : Type} : Protocol F → List MSpec
  | .mk _ _ _ req _ => req

/-- The declared (own, not inherited) provided member specs. -/
def Protocol.provided {F : Type} : Protocol F → List (MSpec × F)
  | .mk _ _ _ _ prov => prov

/-- The declared parent protocols. -/
def Protocol.parents {F : Type} : Protocol F → List (Protocol F)
  | .mk _ _ ps _ _ => ps

mutual
/-- Modelled from the spec (section 4.2): effectiveRequired is the
union of a protocol's own required specs and the effective required
sets of all ancestors. -/
def effRequired {F : Type} : Protocol F → List MSpec
  | .mk _ _ ps req _ => effRequiredL ps ++ req

/-- Union of the effective required sets of a list of protocols. -/
def effRequiredL {F : Type} : List (Protocol F) → List MSpec
  | [] => []
  | p :: ps => effRequired p ++ effRequiredL ps
end

mutual
/-- Modelled from the spec (section 4.2): effectiveProvided, the same
computation for provided members. -/
def effProvided {F : Type} : Protocol F → List (MSpec × F)
  | .mk _ _ ps _ prov => effProvidedL ps ++ prov

/-- Union of the effective provided sets of a list of protocols. -/
def effProvidedL {F : Type} : List (Protocol F) → List (MSpec × F)
  | [] => []
  | p :: ps => effProvided p ++ effProvidedL ps
end

mutual
/-- Modelled from the spec (section 4.2): the reflexive-transitive
closure of the parent relation, as the list of a protocol together
with all its ancestors. -/
def ancestors {F : Type} : Protocol F → List (Protocol F)
  | .mk i n ps req prov => .mk i n ps req prov :: ancestorsL ps

/-- Ancestors of every protocol in a list. -/
def ancestorsL {F : Type} : List (Protocol F) → List (Protocol F)
  | [] => []
  | p :: ps => ancestors p ++ ancestorsL ps
end

/-- The tokens of a list of member specs. -/
def specToks (l : List MSpec) : List Token := l.map MSpec.tok

/-- Declaration-time errors (spec sections 4.2 and 7). -/
inductive DeclError where
  | CyclicInheritance
  | DuplicateProvision (tok : Token)
deriving DecidableEq

/-- Modelled from the spec (section 4.2): declare registers a protocol.
In this embedding protocols are finite terms, so the parent graph is
acyclic by construction and the CyclicInheritance branch cannot fire;
the declaration fails with DuplicateProvision if a provided spec's
token collides with a required token of any ancestor (the union of the
parents' effective required sets). -/
def declare {F : Type} (pid : Nat) (name : String) (parents : List (Protocol F))
    (required : List MSpec) (provided : List (MSpec × F)) :
    Except DeclError (Protocol F) :=
  match provided.filter
      (fun pr => (specToks (effRequiredL parents)).contains pr.1.tok) with
  | [] => .ok (.mk pid name parents required provided)
  | pr :: _ => .error (.DuplicateProvision pr.1.tok)

/-- Association-list lookup keyed by decidable equality, first match
wins.  Member tables, ledgers and member maps all use this shape. -/
def assoc {κ F : Type} [DecidableEq κ] : List (κ × F) → κ → Option F
  | [], _ => none
  | e :: es, k => if e.1 = k then some e.2 else assoc es k

/-- Remove every entry with the given key from an association list. -/
def assocErase {κ F : Type} [DecidableEq κ] (l : List (κ × F)) (k : κ) :
    List (κ × F) :=
  l.filter (fun e => e.1 ≠ k)

/-- Modelled from the spec (section 3): a Coherence Ledger value is
the state of one (type, protocol) pair: transient permission, or an
installed binding mapping every effective required token to its
concrete function value. -/
inductive LedgerVal (F : Type) where
  | permitted
  | installed (binding : List (Token × F))
deriving DecidableEq

/-- Whether a ledger value is the transient permission marker. -/
def LedgerVal.isPermitted {F : Type} : LedgerVal F → Bool
  | .permitted => true
  | .installed _ => false

/-- Modelled from the spec (section 4.4 step 4): a target type owns an
instance member table and a type-level (static) member table. -/
structure MemberTables (F : Type) where
  instTab : List (Token × F)
  statTab : List (Token × F)
deriving DecidableEq

/-- The empty member tables of a type never written to. -/
def MemberTables.empty {F : Type} : MemberTables F := ⟨[], []⟩

/-- Modelled from the spec (sections 2 and 4.3): the process-wide
engine state: per-type member tables plus the Coherence Ledger keyed
by (type identity, protocol identity). -/
structure EngineState (F : Type) where
  tables : List (TypeId × MemberTables F)
  ledger : List ((TypeId × Nat) × LedgerVal F)
deriving DecidableEq

/-- The engine state before any implementation. -/
def EngineState.empty {F : Type} : EngineState F := ⟨[], []⟩

/-- The member tables of a target type (empty if never written). -/
def getTables {F : Type} (st : EngineState F) (t : TypeId) : MemberTables F :=
  (assoc st.tables t).getD MemberTables.empty

/-- Bind a member: instance table for instance-flagged specs,
type-level table for static-flagged specs (spec section 4.4 step 4). -/
def tabSet {F : Type} (tb : MemberTables F) (s : MSpec) (f : F) : MemberTables F :=
  if s.isStatic then { tb with statTab := (s.tok, f) :: tb.statTab }
  else { tb with instTab := (s.tok, f) :: tb.instTab }

/-- Whether a member spec's token is present and bound on the
appropriate table. -/
def tabBound {F : Type} (tb : MemberTables F) (s : MSpec) : Bool :=
  if s.isStatic then (assoc tb.statTab s.tok).isSome
  else (assoc tb.instTab s.tok).isSome

/-- Replace the member tables of a target type. -/
def setTables {F : Type} (st : EngineState F) (t : TypeId) (tb : MemberTables F) :
    EngineState F :=
  { st with tables := (t, tb) :: assocErase st.tables t }

/-- Errors surfaced by implement and member (spec section 7). -/
inductive ImplError where
  | AlreadyImplemented
  | IncompleteImplementation (missingTokens : List Token)
  | NotImplemented
deriving DecidableEq

/-- Modelled from the spec (section 4.4 step 2): look a token up in
the already-installed ancestor-protocol bindings of a target, walking
the reflexive-transitive ancestors of the protocol being implemented. -/
def ancestorFunc {F : Type} (st : EngineState F) (t : TypeId) (p : Protocol F)
    (tok : Token) : Option F :=
  (ancestors p).findSome? (fun q =>
    match assoc st.ledger (t, q.pid) with
    | some (.installed b) => assoc b tok
    | _ => none)

/-- Modelled from the spec (section 4.4 step 2): every required token
absent from the member map and from any already-installed
ancestor-protocol binding on the target. -/
def missingTokens {F : Type} (st : EngineState F) (t : TypeId) (p : Protocol F)
    (m : List (Token × F)) : List Token :=
  specToks ((effRequired p).filter
    (fun s => (assoc m s.tok).isNone && (ancestorFunc st t p s.tok).isNone))

/-- Resolve the function value for a required token: the member map
first, else an installed ancestor binding. -/
def resolveFunc {F : Type} (st : EngineState F) (t : TypeId) (p : Protocol F)
    (m : List (Token × F)) (tok : Token) : Option F :=
  (assoc m tok).orElse (fun _ => ancestorFunc st t p tok)

/-- Modelled from the spec (section 3): the binding committed for a
pair fills every token of the protocol's effective required set with
its resolved concrete function value. -/
def mkBinding {F : Type} (st : EngineState F) (t : TypeId) (p : Protocol F)
    (m : List (Token × F)) : List (Token × F) :=
  (effRequired p).filterMap
    (fun s => (resolveFunc st t p m s.tok).map (fun f => (s.tok, f)))

/-- Modelled from the spec (section 4.4 step 4): install all resolved
required-member functions and all provided-member behaviors onto the
target's member tables. -/
def installMembers {F : Type} (st : EngineState F) (t : TypeId) (p : Protocol F)
    (m : List (Token × F)) : EngineState F :=
  let items := ((effRequired p).filterMap
      (fun s => (resolveFunc st t p m s.tok).map (fun f => (s, f))))
    ++ effProvided p
  setTables st t (items.foldl (fun acc pr => tabSet acc pr.1 pr.2) (getTables st t))

/-- The state holding the transient permit of a pair (spec section
4.4, the Permitted stage of the pair's state machine). -/
def permitState {F : Type} (st : EngineState F) (t : TypeId) (p : Protocol F) :
    EngineState F :=
  { st with ledger := ((t, p.pid), .permitted) :: st.ledger }

/-- Modelled from the spec (section 4.3): beginImplementation acquires
a permit for a pair, failing with AlreadyImplemented if the ledger
already holds an entry for this exact (type, protocol) key. -/
def beginImplementation {F : Type} (st : EngineState F) (t : TypeId)
    (p : Protocol F) : Except ImplError (EngineState F) :=
  if (assoc st.ledger (t, p.pid)).isSome then .error .AlreadyImplemented
  else .ok (permitState st t p)

/-- Modelled from the spec (section 4.3): commit finalizes the ledger
entry of a pair, replacing its permit with the installed binding. -/
def commit {F : Type} (st : EngineState F) (t : TypeId) (p : Protocol F)
    (b : List (Token × F)) : EngineState F :=
  { st with ledger := ((t, p.pid), .installed b) :: assocErase st.ledger (t, p.pid) }

/-- Modelled from the spec (sections 4.4 and 8): a failure before
Installed returns the pair to Unimplemented, removing the transient
permit from the ledger. -/
def rollback {F : Type} (st : EngineState F) (t : TypeId) (p : Protocol F) :
    EngineState F :=
  { st with ledger := assocErase st.ledger (t, p.pid) }

/-- Modelled from the spec (section 4.4): implement acquires a permit,
validates completeness against effectiveRequired, installs required
and provided members onto the target's tables and commits the binding;
on failure it reports the error and the state with the permit rolled
back. -/
def implement {F : Type} (st : EngineState F) (t : TypeId) (p : Protocol F)
    (m : List (Token × F)) : EngineState F × Option ImplError :=
  match beginImplementation st t p with
  | .error e => (st, some e)
  | .ok stP =>
    let miss := missingTokens stP t p m
    if miss.isEmpty then
      (commit (installMembers stP t p m) t p (mkBinding stP t p m), none)
    else
      (rollback stP t p, some (.IncompleteImplementation miss))

/-- The state an implement call leaves behind, successful or not. -/
def implementState {F : Type} (st : EngineState F) (t : TypeId) (p : Protocol F)
    (m : List (Token × F)) : EngineState F :=
  (implement st t p m).1

/-- Modelled from the spec (section 4.4): query is a structural check,
true iff every token of the protocol's effective required and
effective provided sets is present and bound on the target's member
tables, independent of whether the binding passed through implement. -/
def query {F : Type} (st : EngineState F) (t : TypeId) (p : Protocol F) : Bool :=
  (effRequired p).all (fun s => tabBound (getTables st t) s) &&
  (effProvided p).all (fun pr => tabBound (getTables st t) pr.1)

/-- Modelled from the spec (section 6): member resolves the installed
behavior of a token for direct invocation, failing with NotImplemented
if the pair is not in the Installed state. -/
def memberLookup {F : Type} (st : EngineState F) (t : TypeId) (p : Protocol F)
    (s : MSpec) : Except ImplError F :=
  match assoc st.ledger (t, p.pid) with
  | some (.installed _) =>
    match (if s.isStatic then assoc (getTables st t).statTab s.tok
           else assoc (getTables st t).instTab s.tok) with
    | some f => .ok f
    | none => .error .NotImplemented
  | _ => .error .NotImplemented

/-- One implement request, for chaining sequences of calls. -/
structure Call (F : Type) where
  target : TypeId
  proto : Protocol F
  memberMap : List (Token × F)

/-- Run a sequence of implement calls, keeping each resulting state. -/
def runCalls {F : Type} (st : EngineState F) : List (Call F) → EngineState F
  | [] => st
  | c :: cs => runCalls (implementState st c.target c.proto c.memberMap) cs

/-! ## Concrete protocol consumers, translated from src/index.js -/

/-- Array.prototype[Functor.map] (src/index.js line 66), which is the
built-in Array.prototype.map: apply the function to each element. -/
def arrayMap {α β : Type} (xs : List α) (fn : α → β) : List β := xs.map fn

/-- Array.prototype[Apply.apply] (src/index.js lines 67-76): the outer
loop walks the argument list of functions, the inner loop walks the
receiver, appending fs[i](this[j]) in order.  The function is declared
with the single parameter fs. -/
def arrayApply {α β : Type} (xs : List α) : List (α → β) → List β
  | [] => []
  | f :: fs => xs.map f ++ arrayApply xs fs

/-- Array.prototype[Bind.bind] (src/index.js lines 78-84): concatenate
f(this[i]) over the receiver in order. -/
def arrayBind {α β : Type} : List α → (α → List β) → List β
  | [], _ => []
  | x :: xs, f => f x ++ arrayBind xs f

/-- Array[Applicative.pure] (src/index.js line 77): wrap the value in
a one-element array. -/
def arrayPure {α : Type} (v : α) : List α := [v]

/-- The Bind.join provided behavior (src/index.js lines 46-48) at the
array type: this[Bind.bind] with the identity function. -/
def arrayJoin {α : Type} (xs : List (List α)) : List α :=
  arrayBind xs (fun x => x)

/-- JavaScript call semantics: invoking a function declared with one
parameter while passing a second argument drops that argument. -/
def jsCall2 {A B C : Type} (f : A → B) (a : A) (_extra : C) : B := f a

/-- The Apply.lift2 provided behavior (src/index.js lines 31-34) at
the array type: this[Apply.apply](this[Functor.map](fn), other).  The
receiver's apply is the unary arrayApply, called here with the mapped
function list and with other as a second argument. -/
def arrayLift2 {α β γ : Type} (xs : List α) (fn : α → α → β) (other : γ) :
    List β :=
  jsCall2 (arrayApply xs) (arrayMap xs fn) other

/-- Modelled from the spec (sections 4.4 and 8, minimal
implementations): the alternative minimal path supplies join as a
primitive; for arrays that primitive is the direct one-level flatten.
The README (src/README.md lines 178-192) elides this body. -/
def arrayFlatten {α : Type} : List (List α) → List α
  | [] => []
  | l :: ls => l ++ arrayFlatten ls

/-- The MonadViaBind derived join (src/index.js lines 46-48): bind
with the identity function, here with arrayBind supplied as the
primitive. -/
def joinViaBind {α : Type} (xs : List (List α)) : List α :=
  arrayBind xs (fun x => x)

/-- Modelled from the spec (section 8, minimal-implementation
equivalence): the MonadViaJoin derived bind, whose body the README
(src/README.md lines 182-184) elides: map the function over the
receiver and flatten the result with the supplied join. -/
def bindViaJoin {α β : Type} (xs : List α) (fn : α → List β) : List β :=
  arrayFlatten (arrayMap xs fn)

/-- The Maybe values of src/index.js lines 90-134: a Just wrapping a
value, or the Nothing singleton. -/
inductive Maybe (α : Type) where
  | just (value : α)
  | nothing
deriving DecidableEq

/-- Nothing.INSTANCE (src/index.js line 117): the singleton Nothing
value. -/
def nothingINSTANCE {α : Type} : Maybe α := Maybe.nothing

/-- The Nothing constructor (src/index.js lines 119-121): every
construction returns Nothing.INSTANCE. -/
def newNothing {α : Type} (_ : Unit) : Maybe α := nothingINSTANCE

/-- Maybe[Applicative.pure] (src/index.js lines 91-93): wrap the value
in a Just. -/
def maybePure {α : Type} (v : α) : Maybe α := Maybe.just v

/-- Functor.map on Maybe: Just maps the wrapped value into a new Just
(src/index.js lines 101-103); Nothing returns the receiver itself
(src/index.js lines 123-125). -/
def maybeMap {α β : Type} : Maybe α → (α → β) → Maybe β
  | .just v, fn => .just (fn v)
  | .nothing, _ => .nothing

/-- Apply.apply on Maybe: Just maps over the wrapped function when the
argument is a Just and otherwise returns the argument, which is the
Nothing singleton (src/index.js lines 105-109); Nothing returns the
receiver itself (src/index.js lines 127-129). -/
def maybeApply {α β : Type} : Maybe α → Maybe (α → β) → Maybe β
  | .just v, .just g => maybeMap (Maybe.just v) g
  | .just _, .nothing => .nothing
  | .nothing, _ => .nothing

/-- Bind.bind on Maybe: Just applies the function to the wrapped value
(src/index.js lines 111-113); Nothing returns the receiver itself
(src/index.js lines 131-133). -/
def maybeBind {α β : Type} : Maybe α → (α → Maybe β) → Maybe β
  | .just v, fn => fn v
  | .nothing, _ => .nothing

/-- The Bind.join provided behavior (src/index.js lines 46-48) at the
Maybe type: this[Bind.bind] with the identity function. -/
def maybeJoin {α : Type} (m : Maybe (Maybe α)) : Maybe α :=
  maybeBind m (fun x => x)

/-! ## Concrete fixtures

The monad hierarchy of src/examples/monad-hierarchy.js and src/index.js,
run through the engine with natural-number handles standing for the
concrete function values (10-13 are the four prototype members the
example installs on Array, 100-102 are the provided behaviors carried
by the protocol declarations; 102 is the Bind.join behavior whose body
at the array type is arrayJoin). -/

/-- The Functor.map token (src/index.js line 19). -/
def mapTok : Token := 0
/-- The Apply.apply token (src/index.js line 29). -/
def applyTok : Token := 1
/-- The static Applicative.pure token (src/index.js line 40). -/
def pureTok : Token := 2
/-- The Bind.bind token (src/index.js line 44). -/
def bindTok : Token := 3
/-- The Bind.join provided-member token (src/index.js lines 46-48). -/
def joinTok : Token := 4
/-- The Functor.void provided-member token (src/index.js lines 22-24). -/
def voidTok : Token := 5
/-- The Apply.lift2 provided-member token (src/index.js lines 32-34). -/
def lift2Tok : Token := 6

/-- Functor declares required map and provides void
(src/examples/monad-hierarchy.js lines 4-12). -/
def FunctorP : Protocol Nat :=
  .mk 0 "Functor" [] [⟨mapTok, false⟩] [(⟨voidTok, false⟩, 100)]

/-- Apply extends Functor, declares required apply and provides lift2
(src/examples/monad-hierarchy.js lines 14-22). -/
def ApplyP : Protocol Nat :=
  .mk 1 "Apply" [FunctorP] [⟨applyTok, false⟩] [(⟨lift2Tok, false⟩, 101)]

/-- Applicative extends Apply and declares static required pure
(src/examples/monad-hierarchy.js lines 24-27). -/
def ApplicativeP : Protocol Nat :=
  .mk 2 "Applicative" [ApplyP] [⟨pureTok, true⟩] []

/-- Bind extends Apply, declares required bind and provides join as
this[Bind.bind] with the identity function
(src/examples/monad-hierarchy.js lines 29-35). -/
def BindP : Protocol Nat :=
  .mk 3 "Bind" [ApplyP] [⟨bindTok, false⟩] [(⟨joinTok, false⟩, 102)]

/-- Monad extends Applicative and Bind and declares nothing of its own
(src/examples/monad-hierarchy.js line 37). -/
def MonadP : Protocol Nat :=
  .mk 4 "Monad" [ApplicativeP, BindP] [] []

/-- The identity of the Array type in the fixture runs. -/
def arrayT : TypeId := 0

/-- The member map of the Reflect.implement(Array, Monad) call
(src/examples/monad-hierarchy.js lines 39-60): map, apply, pure and
bind, as handles for the prototype functions the example installs. -/
def mArr : List (Token × Nat) :=
  [(mapTok, 10), (applyTok, 11), (pureTok, 12), (bindTok, 13)]

/-- A one-required-member protocol used by concrete witness runs
(the shape of protocol I of src/README.md line 158). -/
def PW1 : Protocol Nat := .mk 0 "I" [] [⟨0, false⟩] []

/-- A protocol extending PW1 with one more required member (the shape
of protocol B extends A of src/README.md lines 135-136). -/
def PW2 : Protocol Nat := .mk 1 "B" [PW1] [⟨1, false⟩] []

/-- A protocol declaring no members at all (the shape of protocol I of
src/README.md line 211). -/
def PW0 : Protocol Nat := .mk 10 "Empty" [] [] []

/-! ## Association-list lemmas -/

theorem assoc_cons_ne {κ F : Type} [DecidableEq κ] (e : κ × F) (l : List (κ × F))
    (k : κ) (h : e.1 ≠ k) : assoc (e :: l) k = assoc l k := by
  simp [assoc, h]

theorem assoc_cons_self {κ F : Type} [DecidableEq κ] (k : κ) (v : F)
    (l : List (κ × F)) : assoc ((k, v) :: l) k = some v := by
  simp [assoc]

theorem assocErase_cons {κ F : Type} [DecidableEq κ] (e : κ × F)
    (l : List (κ × F)) (k : κ) :
    assocErase (e :: l) k =
      if e.1 = k then assocErase l k else e :: assocErase l k := by
  by_cases he : e.1 = k <;> simp [assocErase, List.filter_cons, he]

theorem assoc_erase_ne {κ F : Type} [DecidableEq κ] (l : List (κ × F))
    (k k0 : κ) (h : k0 ≠ k) : assoc (assocErase l k0) k = assoc l k := by
  induction l with
  | nil => rfl
  | cons e es ih =>
    rw [assocErase_cons]
    by_cases he : e.1 = k0
    · have hek : e.1 ≠ k := by rw [he]; exact h
      rw [if_pos he, ih, assoc_cons_ne e es k hek]
    · rw [if_neg he]
      by_cases hke : e.1 = k
      · obtain ⟨k1, v⟩ := e
        simp only at hke
        subst hke
        rw [assoc_cons_self, assoc_cons_self]
      · rw [assoc_cons_ne e _ k hke, assoc_cons_ne e es k hke, ih]

theorem assoc_erase_self {κ F : Type} [DecidableEq κ] (l : List (κ × F))
    (k : κ) : assoc (assocErase l k) k = none := by
  induction l with
  | nil => rfl
  | cons e es ih =>
    rw [assocErase_cons]
    by_cases he : e.1 = k
    · rw [if_pos he]; exact ih
    · rw [if_neg he, assoc_cons_ne e _ k he]; exact ih

theorem assocErase_of_assoc_none {κ F : Type} [DecidableEq κ] (l : List (κ × F))
    (k : κ) (h : assoc l k = none) : assocErase l k = l := by
  induction l with
  | nil => rfl
  | cons e es ih =>
    rw [assocErase_cons]
    by_cases he : e.1 = k
    · exfalso
      obtain ⟨k1, v⟩ := e
      simp only at he
      subst he
      rw [assoc_cons_self] at h
      exact Option.noConfusion h
    · rw [if_neg he]
      rw [assoc_cons_ne e es k he] at h
      rw [ih h]

theorem assoc_isSome_cons {κ F : Type} [DecidableEq κ] (e : κ × F)
    (l : List (κ × F)) (k : κ) (h : (assoc l k).isSome = true) :
    (assoc (e :: l) k).isSome = true := by
  by_cases he : e.1 = k
  · simp [assoc, he]
  · simpa [assoc, he] using h

/-! ## Member-table lemmas -/

theorem tabBound_tabSet_self {F : Type} (tb : MemberTables F) (s : MSpec)
    (f : F) : tabBound (tabSet tb s f) s = true := by
  cases s with
  | mk tok isStat =>
    cases isStat <;> simp [tabSet, tabBound, assoc]

theorem tabBound_tabSet_mono {F : Type} (tb : MemberTables F) (s s0 : MSpec)
    (f : F) (h : tabBound tb s = true) : tabBound (tabSet tb s0 f) s = true := by
  cases s with
  | mk tok isStat =>
    cases s0 with
    | mk tok0 isStat0 =>
      cases isStat <;> cases isStat0 <;>
        simp [tabSet, tabBound] at h ⊢ <;>
        first
          | exact h
          | exact assoc_isSome_cons _ _ _ h

theorem tabBound_foldl {F : Type} (l : List (MSpec × F)) (tb : MemberTables F)
    (s : MSpec)
    (h : (∃ f, (s, f) ∈ l) ∨ tabBound tb s = true) :
    tabBound (l.foldl (fun acc pr => tabSet acc pr.1 pr.2) tb) s = true := by
  induction l generalizing tb with
  | nil =>
    rcases h with ⟨f, hf⟩ | h
    · exact absurd hf (List.not_mem_nil _)
    · exact h
  | cons e es ih =>
    rcases h with ⟨f, hf⟩ | h
    · rcases List.mem_cons.mp hf with heq | htail
      · have : tabBound (tabSet tb e.1 e.2) s = true := by
          have : e = (s, f) := heq.symm
          rw [this]
          exact tabBound_tabSet_self tb s f
        exact ih (tabSet tb e.1 e.2) (Or.inr this)
      · exact ih (tabSet tb e.1 e.2) (Or.inl ⟨f, htail⟩)
    · exact ih (tabSet tb e.1 e.2) (Or.inr (tabBound_tabSet_mono tb s e.1 e.2 h))

/-! ## Engine-state lemmas -/

theorem getTables_setTables {F : Type} (st : EngineState F) (t : TypeId)
    (tb : MemberTables F) : getTables (setTables st t tb) t = tb := by
  simp [getTables, setTables, assoc_cons_self]

theorem tables_permitState {F : Type} (st : EngineState F) (t : TypeId)
    (p : Protocol F) : (permitState st t p).tables = st.tables := rfl

theorem ledger_permitState {F : Type} (st : EngineState F) (t : TypeId)
    (p : Protocol F) :
    (permitState st t p).ledger = ((t, p.pid), .permitted) :: st.ledger := rfl

theorem tables_commit {F : Type} (st : EngineState F) (t : TypeId)
    (p : Protocol F) (b : List (Token × F)) : (commit st t p b).tables = st.tables :=
  rfl

theorem ledger_commit {F : Type} (st : EngineState F) (t : TypeId)
    (p : Protocol F) (b : List (Token × F)) :
    (commit st t p b).ledger =
      ((t, p.pid), .installed b) :: assocErase st.ledger (t, p.pid) := rfl

theorem tables_installMembers {F : Type} (st : EngineState F) (t : TypeId)
    (p : Protocol F) (m : List (Token × F)) :
    getTables (installMembers st t p m) t =
      (((effRequired p).filterMap
          (fun s => (resolveFunc st t p m s.tok).map (fun f => (s, f))))
        ++ effProvided p).foldl (fun acc pr => tabSet acc pr.1 pr.2)
          (getTables st t) := by
  simp [installMembers, getTables_setTables]

theorem ledger_installMembers {F : Type} (st : EngineState F) (t : TypeId)
    (p : Protocol F) (m : List (Token × F)) :
    (installMembers st t p m).ledger = st.ledger := rfl

theorem rollback_permitState {F : Type} (st : EngineState F) (t : TypeId)
    (p : Protocol F) (h : assoc st.ledger (t, p.pid) = none) :
    rollback (permitState st t p) t p = st := by
  cases st with
  | mk tables ledger =>
    simp only [rollback, permitState] at *
    congr 1
    show assocErase (((t, p.pid), LedgerVal.permitted) :: ledger) (t, p.pid) = ledger
    simp only [assocErase, List.filter, decide_not]
    simp only [decide_eq_decide.mpr (Iff.rfl), decide_True]
    have : assocErase ledger (t, p.pid) = ledger := assocErase_of_assoc_none ledger _ h
    simpa [assocErase] using this

/-! ## Characterization of implement -/

theorem implement_of_present {F : Type} (st : EngineState F) (t : TypeId)
    (p : Protocol F) (m : List (Token × F))
    (h : (assoc st.ledger (t, p.pid)).isSome = true) :
    implement st t p m = (st, some .AlreadyImplemented) := by
  simp [implement, beginImplementation, h]

theorem implement_of_absent {F : Type} (st : EngineState F) (t : TypeId)
    (p : Protocol F) (m : List (Token × F))
    (h : assoc st.ledger (t, p.pid) = none) :
    implement st t p m =
      if (missingTokens (permitState st t p) t p m).isEmpty then
        (commit (installMembers (permitState st t p) t p m) t p
          (mkBinding (permitState st t p) t p m), none)
      else
        (rollback (permitState st t p) t p,
          some (.IncompleteImplementation (missingTokens (permitState st t p) t p m))) := by
  have hs : (assoc st.ledger (t, p.pid)).isSome = false := by
    rw [h]; rfl
  simp [implement, beginImplementation, hs]

theorem implement_success_elim {F : Type} {st st1 : EngineState F} {t : TypeId}
    {p : Protocol F} {m : List (Token × F)}
    (h : implement st t p m = (st1, none)) :
    assoc st.ledger (t, p.pid) = none ∧
    missingTokens (permitState st t p) t p m = [] ∧
    st1 = commit (installMembers (permitState st t p) t p m) t p
      (mkBinding (permitState st t p) t p m) := by
  by_cases habs : assoc st.ledger (t, p.pid) = none
  · rw [implement_of_absent st t p m habs] at h
    by_cases hmiss : (missingTokens (permitState st t p) t p m).isEmpty = true
    · rw [if_pos hmiss] at h
      refine ⟨habs, ?_, (Prod.mk.injEq _ _ _ _ ▸ h).1.symm⟩
      exact List.isEmpty_iff.mp hmiss
    · rw [if_neg hmiss] at h
      exact absurd (Prod.mk.injEq _ _ _ _ ▸ h).2 (by simp)
  · have hs : (assoc st.ledger (t, p.pid)).isSome = true := by
      cases hv : assoc st.ledger (t, p.pid) with
      | none => exact absurd hv habs
      | some v => rfl
    rw [implement_of_present st t p m hs] at h
    exact absurd (Prod.mk.injEq _ _ _ _ ▸ h).2 (by simp)

theorem implement_success_intro {F : Type} (st : EngineState F) (t : TypeId)
    (p : Protocol F) (m : List (Token × F))
    (habs : assoc st.ledger (t, p.pid) = none)
    (hmiss : missingTokens (permitState st t p) t p m = []) :
    implement st t p m =
      (commit (installMembers (permitState st t p) t p m) t p
        (mkBinding (permitState st t p) t p m), none) := by
  rw [implement_of_absent st t p m habs, hmiss]
  rfl

theorem implement_fail_state {F : Type} (st : EngineState F) (t : TypeId)
    (p : Protocol F) (m : List (Token × F)) (e : ImplError)
    (h : (implement st t p m).2 = some e) : (implement st t p m).1 = st := by
  by_cases habs : assoc st.ledger (t, p.pid) = none
  · rw [implement_of_absent st t p m habs] at h ⊢
    by_cases hmiss : (missingTokens (permitState st t p) t p m).isEmpty = true
    · rw [if_pos hmiss] at h
      exact absurd h (by simp)
    · rw [if_neg hmiss]
      exact rollback_permitState st t p habs
  · have hs : (assoc st.ledger (t, p.pid)).isSome = true := by
      cases hv : assoc st.ledger (t, p.pid) with
      | none => exact absurd hv habs
      | some v => rfl
    rw [implement_of_present st t p m hs]

theorem assoc_ledger_implement_mono {F : Type} (st : EngineState F) (t : TypeId)
    (p : Protocol F) (m : List (Token × F)) (k : TypeId × Nat)
    (b : List (Token × F)) (h : assoc st.ledger k = some (.installed b)) :
    assoc (implement st t p m).1.ledger k = some (.installed b) := by
  by_cases habs : assoc st.ledger (t, p.pid) = none
  · have hk : (t, p.pid) ≠ k := by
      intro he
      rw [he, h] at habs
      exact Option.noConfusion habs
    rw [implement_of_absent st t p m habs]
    by_cases hmiss : (missingTokens (permitState st t p) t p m).isEmpty = true
    · rw [if_pos hmiss]
      show assoc (commit (installMembers (permitState st t p) t p m) t p _).ledger k = _
      rw [ledger_commit]
      rw [assoc_cons_ne _ _ k hk]
      rw [assoc_erase_ne _ k (t, p.pid) hk]
      rw [ledger_installMembers, ledger_permitState]
      rw [assoc_cons_ne _ _ k hk]
      exact h
    · rw [if_neg hmiss]
      show assoc (rollback (permitState st t p) t p).ledger k = _
      show assoc (assocErase (permitState st t p).ledger (t, p.pid)) k = _
      rw [assoc_erase_ne _ k (t, p.pid) hk, ledger_permitState,
        assoc_cons_ne _ _ k hk]
      exact h
  · have hs : (assoc st.ledger (t, p.pid)).isSome = true := by
      cases hv : assoc st.ledger (t, p.pid) with
      | none => exact absurd hv habs
      | some v => rfl
    rw [implement_of_present st t p m hs]
    exact h

theorem assoc_ledger_runCalls_mono {F : Type} (calls : List (Call F))
    (st : EngineState F) (k : TypeId × Nat) (b : List (Token × F))
    (h : assoc st.ledger k = some (.installed b)) :
    assoc (runCalls st calls).ledger k = some (.installed b) := by
  induction calls generalizing st with
  | nil => exact h
  | cons c cs ih =>
    exact ih _ (assoc_ledger_implement_mono st c.target c.proto c.memberMap k b h)

/-! ## Coverage lemmas -/

theorem missingTokens_eq_nil_iff {F : Type} (st : EngineState F) (t : TypeId)
    (p : Protocol F) (m : List (Token × F)) :
    missingTokens st t p m = [] ↔
      ∀ s ∈ effRequired p,
        (assoc m s.tok).isSome = true ∨ (ancestorFunc st t p s.tok).isSome = true := by
  rw [missingTokens, specToks, List.map_eq_nil_iff, List.filter_eq_nil_iff]
  constructor
  · intro h s hs
    have := h s hs
    rcases hm : assoc m s.tok with _ | v
    · rcases ha : ancestorFunc st t p s.tok with _ | w
      · rw [hm, ha] at this
        simp at this
      · exact Or.inr rfl
    · exact Or.inl rfl
  · intro h s hs
    rcases h s hs with hm | ha
    · rcases hv : assoc m s.tok with _ | v
      · rw [hv] at hm
        exact Bool.noConfusion hm
      · simp [hv]
    · rcases hv : ancestorFunc st t p s.tok with _ | v
      · rw [hv] at ha
        exact Bool.noConfusion ha
      · simp [hv]

theorem ancestorFunc_permitState {F : Type} (st : EngineState F) (t : TypeId)
    (p : Protocol F) (tok : Token) (h : assoc st.ledger (t, p.pid) = none) :
    ancestorFunc (permitState st t p) t p tok = ancestorFunc st t p tok := by
  unfold ancestorFunc
  congr 1
  funext q
  by_cases hq : q.pid = p.pid
  · have hk : ((t, q.pid) : TypeId × Nat) = (t, p.pid) := by rw [hq]
    rw [ledger_permitState, hk, assoc_cons_self, h]
  · have hk : ((t, p.pid) : TypeId × Nat) ≠ (t, q.pid) := by
      intro he
      exact hq (Prod.mk.injEq _ _ _ _ ▸ he).2.symm
    rw [ledger_permitState, assoc_cons_ne _ _ _ hk]

theorem findSome?_isSome_of_mem {α β : Type} (l : List α) (f : α → Option β)
    (a : α) (ha : a ∈ l) (hf : (f a).isSome = true) :
    (List.findSome? f l).isSome = true := by
  induction l with
  | nil => exact absurd ha (List.not_mem_nil a)
  | cons b bs ih =>
    rw [List.findSome?_cons]
    rcases hb : f b with _ | v
    · rcases List.mem_cons.mp ha with rfl | htail
      · rw [hb] at hf
        exact Bool.noConfusion hf
      · exact ih htail
    · rfl

theorem resolveFunc_isSome_iff {F : Type} (st : EngineState F) (t : TypeId)
    (p : Protocol F) (m : List (Token × F)) (tok : Token) :
    (resolveFunc st t p m tok).isSome = true ↔
      (assoc m tok).isSome = true ∨ (ancestorFunc st t p tok).isSome = true := by
  rcases hm : assoc m tok with _ | v
  · rcases ha : ancestorFunc st t p tok with _ | w <;>
      simp [resolveFunc, Option.orElse, hm, ha]
  · simp [resolveFunc, Option.orElse, hm]

theorem assoc_filterMap_isSome {F : Type} (l : List MSpec)
    (resolve : Token → Option F)
    (h : ∀ s ∈ l, (resolve s.tok).isSome = true) (s0 : MSpec) (hs0 : s0 ∈ l) :
    (assoc (l.filterMap (fun s => (resolve s.tok).map (fun f => (s.tok, f))))
      s0.tok).isSome = true := by
  induction l with
  | nil => exact absurd hs0 (List.not_mem_nil s0)
  | cons s ss ih =>
    have hhead := h s (List.mem_cons_self s ss)
    rcases hr : resolve s.tok with _ | f
    · rw [hr] at hhead
      exact Bool.noConfusion hhead
    · rw [List.filterMap_cons, hr]
      show (assoc ((s.tok, f) :: _) s0.tok).isSome = true
      by_cases hts : s.tok = s0.tok
      · rw [← hts, assoc_cons_self]
        rfl
      · rw [assoc_cons_ne _ _ _ hts]
        rcases List.mem_cons.mp hs0 with rfl | htail
        · exact absurd rfl hts
        · exact ih (fun x hx => h x (List.mem_cons_of_mem s hx)) htail

theorem mkBinding_covers {F : Type} (st : EngineState F) (t : TypeId)
    (p : Protocol F) (m : List (Token × F))
    (h : ∀ s ∈ effRequired p, (resolveFunc st t p m s.tok).isSome = true)
    (s0 : MSpec) (hs0 : s0 ∈ effRequired p) :
    (assoc (mkBinding st t p m) s0.tok).isSome = true :=
  assoc_filterMap_isSome (effRequired p) (resolveFunc st t p m) h s0 hs0

theorem missing_empty_resolve {F : Type} (st : EngineState F) (t : TypeId)
    (p : Protocol F) (m : List (Token × F))
    (h : missingTokens st t p m = []) :
    ∀ s ∈ effRequired p, (resolveFunc st t p m s.tok).isSome = true := by
  intro s hs
  rw [resolveFunc_isSome_iff]
  exact (missingTokens_eq_nil_iff st t p m).mp h s hs

theorem getTables_commit {F : Type} (st : EngineState F) (t0 t : TypeId)
    (p : Protocol F) (b : List (Token × F)) :
    getTables (commit st t p b) t0 = getTables st t0 := rfl

theorem query_after_success {F : Type} (st st1 : EngineState F) (t : TypeId)
    (p : Protocol F) (m : List (Token × F))
    (h : implement st t p m = (st1, none)) : query st1 t p = true := by
  obtain ⟨habs, hmiss, hst⟩ := implement_success_elim h
  have hres := missing_empty_resolve _ t p m hmiss
  rw [hst, query, Bool.and_eq_true]
  rw [getTables_commit, tables_installMembers]
  constructor
  · rw [List.all_eq_true]
    intro s hs
    refine tabBound_foldl _ _ s (Or.inl ?_)
    have := hres s hs
    rcases hv : resolveFunc (permitState st t p) t p m s.tok with _ | f
    · rw [hv] at this
      exact Bool.noConfusion this
    · exact ⟨f, List.mem_append.mpr (Or.inl
        (List.mem_filterMap.mpr ⟨s, hs, by rw [hv]; rfl⟩))⟩
  · rw [List.all_eq_true]
    intro pr hpr
    exact tabBound_foldl _ _ pr.1
      (Or.inl ⟨pr.2, List.mem_append.mpr (Or.inr (by simpa using hpr))⟩)

theorem implement_snd_none_iff {F : Type} (st : EngineState F) (t : TypeId)
    (p : Protocol F) (m : List (Token × F))
    (habs : assoc st.ledger (t, p.pid) = none) :
    (implement st t p m).2 = none ↔
      ∀ s ∈ effRequired p,
        (assoc m s.tok).isSome = true ∨ (ancestorFunc st t p s.tok).isSome = true := by
  rw [implement_of_absent st t p m habs]
  by_cases hmiss : (missingTokens (permitState st t p) t p m).isEmpty = true
  · rw [if_pos hmiss]
    constructor
    · intro _ s hs
      have := (missingTokens_eq_nil_iff _ t p m).mp (List.isEmpty_iff.mp hmiss) s hs
      rwa [ancestorFunc_permitState st t p s.tok habs] at this
    · intro _
      rfl
  · rw [if_neg hmiss]
    constructor
    · intro h
      exact absurd h (by simp)
    · intro hcov
      exfalso
      apply hmiss
      rw [List.isEmpty_iff, missingTokens_eq_nil_iff]
      intro s hs
      rw [ancestorFunc_permitState st t p s.tok habs]
      exact hcov s hs

/-! ## The claims -/

/-- C1: Coherence: once implement(T, P, m1) has succeeded, every later
implement(T, P, m2) call — after any further sequence of implement
calls, and for every member map m2 including m1 itself — fails with
AlreadyImplemented, the failing call leaves the whole state unchanged,
and the ledger still holds exactly the binding installed by the first
call. -/
theorem C1_coherence {F : Type} (st st1 : EngineState F) (t : TypeId)
    (p : Protocol F) (m1 : List (Token × F))
    (h : implement st t p m1 = (st1, none))
    (calls : List (Call F)) (m2 : List (Token × F)) :
    (implement (runCalls st1 calls) t p m2).2 = some .AlreadyImplemented ∧
    (implement (runCalls st1 calls) t p m2).1 = runCalls st1 calls ∧
    assoc (runCalls st1 calls).ledger (t, p.pid) =
      some (.installed (mkBinding (permitState st t p) t p m1)) := by
  obtain ⟨habs, hmiss, hst⟩ := implement_success_elim h
  have hinst : assoc st1.ledger (t, p.pid) =
      some (.installed (mkBinding (permitState st t p) t p m1)) := by
    rw [hst, ledger_commit, assoc_cons_self]
  have hrun := assoc_ledger_runCalls_mono calls st1 (t, p.pid) _ hinst
  have hsome : (assoc (runCalls st1 calls).ledger (t, p.pid)).isSome = true := by
    rw [hrun]
    rfl
  have hpres := implement_of_present (runCalls st1 calls) t p m2 hsome
  exact ⟨by rw [hpres], by rw [hpres], hrun⟩

/-- Witness for C1: implementing the one-member protocol PW1 on type 0
succeeds; with no further calls in between, a repeated implement for
the same pair fails with AlreadyImplemented, returns the state
unchanged and keeps the original binding. -/
theorem C1_coherence_witness :
    (implement (runCalls (implement EngineState.empty 0 PW1 [(0, 7)]).1 [])
        0 PW1 [(0, 99)]).2 = some .AlreadyImplemented ∧
    (implement (runCalls (implement EngineState.empty 0 PW1 [(0, 7)]).1 [])
        0 PW1 [(0, 99)]).1 =
      runCalls (implement EngineState.empty 0 PW1 [(0, 7)]).1 [] ∧
    assoc (runCalls (implement EngineState.empty 0 PW1 [(0, 7)]).1 []).ledger
        (0, PW1.pid) =
      some (.installed (mkBinding (permitState EngineState.empty 0 PW1) 0 PW1 [(0, 7)])) :=
  C1_coherence EngineState.empty (implement EngineState.empty 0 PW1 [(0, 7)]).1
    0 PW1 [(0, 7)] (by decide) [] [(0, 99)]

/-- C8: Atomicity: a failing implement call returns the state exactly
as it was; the transient Permitted marker is never observable in the
state an implement call returns; installed entries never change; and a
successful call moves its pair from Unimplemented directly to
Installed with the computed binding. -/
theorem C8_atomicity {F : Type} (st : EngineState F) (t : TypeId)
    (p : Protocol F) (m : List (Token × F))
    (hwf : st.ledger.all (fun e => !e.2.isPermitted) = true) :
    (∀ e, (implement st t p m).2 = some e → (implement st t p m).1 = st) ∧
    ((implement st t p m).1.ledger.all (fun e => !e.2.isPermitted) = true) ∧
    (∀ k b, assoc st.ledger k = some (.installed b) →
      assoc (implement st t p m).1.ledger k = some (.installed b)) ∧
    ((implement st t p m).2 = none →
      assoc st.ledger (t, p.pid) = none ∧
      assoc (implement st t p m).1.ledger (t, p.pid) =
        some (.installed (mkBinding (permitState st t p) t p m))) := by
  refine ⟨fun e he => implement_fail_state st t p m e he, ?_,
    fun k b hk => assoc_ledger_implement_mono st t p m k b hk, ?_⟩
  · by_cases habs : assoc st.ledger (t, p.pid) = none
    · rw [implement_of_absent st t p m habs]
      by_cases hmiss : (missingTokens (permitState st t p) t p m).isEmpty = true
      · rw [if_pos hmiss]
        show (commit (installMembers (permitState st t p) t p m) t p
          (mkBinding (permitState st t p) t p m)).ledger.all _ = true
        rw [ledger_commit, ledger_installMembers, ledger_permitState]
        rw [List.all_eq_true]
        intro e he
        rcases List.mem_cons.mp he with rfl | htail
        · rfl
        · rw [assocErase_cons, if_pos rfl] at htail
          exact List.all_eq_true.mp hwf e (List.mem_filter.mp htail).1
      · rw [if_neg hmiss]
        show (rollback (permitState st t p) t p).ledger.all _ = true
        rw [rollback_permitState st t p habs]
        exact hwf
    · have hs : (assoc st.ledger (t, p.pid)).isSome = true := by
        cases hv : assoc st.ledger (t, p.pid) with
        | none => exact absurd hv habs
        | some v => rfl
      rw [implement_of_present st t p m hs]
      exact hwf
  · intro hnone
    have heq : implement st t p m = ((implement st t p m).1, none) := by
      rw [← hnone]
    obtain ⟨habs, hmiss, hst⟩ := implement_success_elim heq
    refine ⟨habs, ?_⟩
    rw [hst, ledger_commit, assoc_cons_self]

/-- Witness for C8: in the state where PW1 is already installed on
type 0, a repeated implement fails and returns that state exactly. -/
theorem C8_atomicity_witness :
    (implement (implement EngineState.empty 0 PW1 [(0, 7)]).1 0 PW1 [(0, 7)]).1 =
      (implement EngineState.empty 0 PW1 [(0, 7)]).1 :=
  (C8_atomicity (implement EngineState.empty 0 PW1 [(0, 7)]).1 0 PW1 [(0, 7)]
      (by decide)).1 .AlreadyImplemented (by decide)

/-- C9: the provided Apply.lift2 behavior at the array type does not
depend on its second argument: lift2 passes other as a second argument
to Apply.apply, and the array implementation of apply is declared with
only one parameter, so a JavaScript call drops the extra argument. -/
theorem C9_lift2_ignores_other {α β γ1 γ2 : Type} (xs : List α)
    (fn : α → α → β) (o1 : γ1) (o2 : γ2) :
    arrayLift2 xs fn o1 = arrayLift2 xs fn o2 ∧
    arrayLift2 xs fn o1 = arrayApply xs (arrayMap xs fn) :=
  ⟨rfl, rfl⟩

/-- C10: Nothing is a singleton fixpoint of the Maybe operations:
every construction of Nothing yields the singleton INSTANCE; map,
apply and bind on Nothing return the receiver, with a result that does
not depend on the function argument; and the derived join on Nothing
is Nothing. -/
theorem C10_nothing_singleton {α β : Type} :
    (∀ u v : Unit, newNothing u = (nothingINSTANCE : Maybe α) ∧
      (newNothing u : Maybe α) = newNothing v) ∧
    (∀ fn : α → β, maybeMap Maybe.nothing fn = Maybe.nothing) ∧
    (∀ fn1 fn2 : α → β,
      maybeMap Maybe.nothing fn1 = maybeMap Maybe.nothing fn2) ∧
    (∀ g : Maybe (α → β), maybeApply Maybe.nothing g = Maybe.nothing) ∧
    (∀ fn : α → Maybe β, maybeBind Maybe.nothing fn = Maybe.nothing) ∧
    (∀ fn1 fn2 : α → Maybe β,
      maybeBind Maybe.nothing fn1 = maybeBind Maybe.nothing fn2) ∧
    maybeJoin (Maybe.nothing : Maybe (Maybe α)) = Maybe.nothing := by
  refine ⟨fun u v => ⟨rfl, rfl⟩, fun fn => rfl, fun fn1 fn2 => rfl,
    fun g => ?_, fun fn => rfl, fun fn1 fn2 => rfl, rfl⟩
  cases g <;> rfl

/-- C2 counterexample: PW1 requires only token 0; the member map
[(0, 7), (5, 8)] carries an extra entry with token 5; implement
succeeds, and removing that single entry still succeeds rather than
failing with IncompleteImplementation listing 5, so the claim as
stated is false. -/
theorem C2_counterexample :
    (implement EngineState.empty 0 PW1 [(0, 7), (5, 8)]).2 = none ∧
    assocErase [((0 : Token), (7 : Nat)), (5, 8)] 5 = [(0, 7)] ∧
    (implement EngineState.empty 0 PW1 (assocErase [(0, 7), (5, 8)] 5)).2 = none :=
  ⟨by decide, by decide, by decide⟩

/-- C2 (amended): for a pair with no existing ledger entry, implement
succeeds iff the member map together with already-installed
ancestor-protocol bindings covers effectiveRequired; and removing from
a succeeding member map any single entry whose token is an effective
required token not satisfiable through an ancestor binding makes the
call fail with IncompleteImplementation listing that token. -/
theorem C2_completeness_amended {F : Type} (st : EngineState F) (t : TypeId)
    (p : Protocol F) (m : List (Token × F))
    (habs : assoc st.ledger (t, p.pid) = none) :
    ((implement st t p m).2 = none ↔
      ∀ s ∈ effRequired p,
        (assoc m s.tok).isSome = true ∨ (ancestorFunc st t p s.tok).isSome = true) ∧
    (∀ tok, (implement st t p m).2 = none →
      (∃ s ∈ effRequired p, s.tok = tok) →
      (ancestorFunc st t p tok).isSome = false →
      ∃ miss, (implement st t p (assocErase m tok)).2 =
          some (.IncompleteImplementation miss) ∧ tok ∈ miss) := by
  refine ⟨implement_snd_none_iff st t p m habs, ?_⟩
  rintro tok _ ⟨s0, hs0, hs0tok⟩ hanc
  have hancnone : ancestorFunc st t p tok = none := by
    cases hv : ancestorFunc st t p tok with
    | none => rfl
    | some v =>
      rw [hv] at hanc
      exact Bool.noConfusion hanc
  have hpred : ((assoc (assocErase m tok) s0.tok).isNone &&
      (ancestorFunc (permitState st t p) t p s0.tok).isNone) = true := by
    rw [hs0tok, assoc_erase_self, ancestorFunc_permitState st t p tok habs, hancnone]
    rfl
  have hmem : tok ∈ missingTokens (permitState st t p) t p (assocErase m tok) := by
    rw [missingTokens, specToks]
    exact List.mem_map.mpr ⟨s0, List.mem_filter.mpr ⟨hs0, hpred⟩, hs0tok⟩
  have hne : ¬(missingTokens (permitState st t p) t p (assocErase m tok)).isEmpty = true := by
    intro hemp
    rw [List.isEmpty_iff.mp hemp] at hmem
    exact List.not_mem_nil tok hmem
  rw [implement_of_absent st t p (assocErase m tok) habs, if_neg hne]
  exact ⟨missingTokens (permitState st t p) t p (assocErase m tok), rfl, hmem⟩

/-- Witness for C2 (amended): removing the sole entry for required
token 0 of PW1 makes the call fail with that token listed. -/
theorem C2_completeness_witness :
    ∃ miss, (implement EngineState.empty 0 PW1 (assocErase [(0, 7)] 0)).2 =
        some (.IncompleteImplementation miss) ∧ 0 ∈ miss :=
  (C2_completeness_amended EngineState.empty 0 PW1 [(0, 7)] (by decide)).2 0
    (by decide) ⟨⟨0, false⟩, by decide, rfl⟩ (by decide)

/-- C3 counterexample: PW0 declares no members; on the empty state no
member of PW0 is bound on type 0 (its tables are empty), yet the
structural query returns true, contradicting the claim that query is
false for a type with none of the protocol's members bound. -/
theorem C3_counterexample :
    query EngineState.empty 0 PW0 = true ∧
    effRequired PW0 = [] ∧ effProvided PW0 = [] ∧
    getTables (EngineState.empty : EngineState Nat) 0 = MemberTables.empty :=
  ⟨by decide, rfl, rfl, rfl⟩

/-- C3 (amended): query is purely structural — true iff every
effective required and provided member spec is bound on the target's
tables; query is true after any successful implement; and for a
protocol with at least one effective member, query is false on a type
with none of those members bound. -/
theorem C3_query_structural_amended {F : Type} (p : Protocol F) :
    (∀ (st : EngineState F) (t : TypeId), query st t p = true ↔
      ((∀ s ∈ effRequired p, tabBound (getTables st t) s = true) ∧
       (∀ pr ∈ effProvided p, tabBound (getTables st t) pr.1 = true))) ∧
    (∀ (st st1 : EngineState F) (t : TypeId) (m : List (Token × F)),
      implement st t p m = (st1, none) → query st1 t p = true) ∧
    (∀ (st : EngineState F) (t : TypeId),
      (effRequired p ≠ [] ∨ effProvided p ≠ []) →
      (∀ s ∈ effRequired p, tabBound (getTables st t) s = false) →
      (∀ pr ∈ effProvided p, tabBound (getTables st t) pr.1 = false) →
      query st t p = false) := by
  refine ⟨?_, fun st st1 t m h => query_after_success st st1 t p m h, ?_⟩
  · intro st t
    rw [query, Bool.and_eq_true, List.all_eq_true, List.all_eq_true]
  · intro st t hne hreq hprov
    rcases hne with hne | hne
    · rcases List.exists_mem_of_ne_nil (effRequired p) hne with ⟨s0, hs0⟩
      have h1 : (effRequired p).all (fun s => tabBound (getTables st t) s) = false := by
        cases hb : (effRequired p).all (fun s => tabBound (getTables st t) s) with
        | false => rfl
        | true =>
          have := List.all_eq_true.mp hb s0 hs0
          rw [hreq s0 hs0] at this
          exact Bool.noConfusion this
      show ((effRequired p).all (fun s => tabBound (getTables st t) s) && _) = false
      rw [h1, Bool.false_and]
    · rcases List.exists_mem_of_ne_nil (effProvided p) hne with ⟨pr0, hpr0⟩
      have h2 : (effProvided p).all (fun pr => tabBound (getTables st t) pr.1) = false := by
        cases hb : (effProvided p).all (fun pr => tabBound (getTables st t) pr.1) with
        | false => rfl
        | true =>
          have := List.all_eq_true.mp hb pr0 hpr0
          rw [hprov pr0 hpr0] at this
          exact Bool.noConfusion this
      show (_ && (effProvided p).all (fun pr => tabBound (getTables st t) pr.1)) = false
      rw [h2, Bool.and_false]

/-- Witness for C3 (amended): after successfully implementing PW1 on
type 0, query returns true. -/
theorem C3_query_witness :
    query (implement EngineState.empty 0 PW1 [(0, 7)]).1 0 PW1 = true :=
  (C3_query_structural_amended PW1).2.1 EngineState.empty
    (implement EngineState.empty 0 PW1 [(0, 7)]).1 0 [(0, 7)] (by decide)

/-- C4: the monad-hierarchy scenario: the Functor, Apply, Applicative,
Bind and Monad declarations all succeed (Bind providing join, handle
102, whose body at the array type is arrayJoin, this[Bind.bind] with
the identity); implementing Monad on the Array type with only map,
apply, pure and bind succeeds; query(Array, Monad) is then true; the
installed join member resolves; and the join behavior flattens a
nested list by exactly one level. -/
theorem C4_monad_scenario :
    declare 0 "Functor" [] [⟨mapTok, false⟩] [(⟨voidTok, false⟩, 100)] = .ok FunctorP ∧
    declare 1 "Apply" [FunctorP] [⟨applyTok, false⟩] [(⟨lift2Tok, false⟩, 101)] = .ok ApplyP ∧
    declare 2 "Applicative" [ApplyP] [⟨pureTok, true⟩] [] = .ok ApplicativeP ∧
    declare 3 "Bind" [ApplyP] [⟨bindTok, false⟩] [(⟨joinTok, false⟩, 102)] = .ok BindP ∧
    declare 4 "Monad" [ApplicativeP, BindP] [] [] = .ok MonadP ∧
    (implement EngineState.empty arrayT MonadP mArr).2 = none ∧
    query (implement EngineState.empty arrayT MonadP mArr).1 arrayT MonadP = true ∧
    memberLookup (implement EngineState.empty arrayT MonadP mArr).1 arrayT MonadP
      ⟨joinTok, false⟩ = .ok 102 ∧
    arrayJoin [[1], [2, 3]] = [1, 2, 3] :=
  ⟨rfl, rfl, rfl, rfl, rfl, by decide, by decide, rfl, by decide⟩

/-- C5: minimal-implementation equivalence: supplying bind and
deriving join (bind with the identity) versus supplying join (the
direct one-level flatten) and deriving bind (flatten after map) yields
provided members with identical observable results on every input. -/
theorem C5_minimal_equivalence {α β : Type} :
    (∀ xs : List (List α), joinViaBind xs = arrayFlatten xs) ∧
    (∀ (xs : List α) (fn : α → List β), bindViaJoin xs fn = arrayBind xs fn) := by
  constructor
  · intro xs
    induction xs with
    | nil => rfl
    | cons l ls ih =>
      show l ++ joinViaBind ls = l ++ arrayFlatten ls
      rw [ih]
  · intro xs fn
    induction xs with
    | nil => rfl
    | cons x xs ih =>
      show fn x ++ bindViaJoin xs fn = fn x ++ arrayBind xs fn
      rw [ih]

/-- C6: declare fails with DuplicateProvision exactly when some
provided member spec's token equals a required token of an ancestor
(the union of the parents' effective required sets); the rejection
happens in declare itself, at declaration time. -/
theorem C6_duplicate_provision {F : Type} (pid : Nat) (name : String)
    (parents : List (Protocol F)) (required : List MSpec)
    (provided : List (MSpec × F)) :
    (∃ tok, declare pid name parents required provided =
        .error (.DuplicateProvision tok)) ↔
      ∃ pr ∈ provided, pr.1.tok ∈ specToks (effRequiredL parents) := by
  constructor
  · rintro ⟨tok, h⟩
    unfold declare at h
    rcases hf : provided.filter
        (fun pr => (specToks (effRequiredL parents)).contains pr.1.tok) with _ | ⟨pr0, rest⟩
    · rw [hf] at h
      exact Except.noConfusion h
    · have hmem : pr0 ∈ provided.filter
          (fun pr => (specToks (effRequiredL parents)).contains pr.1.tok) := by
        rw [hf]
        exact List.mem_cons_self pr0 rest
      have hm := List.mem_filter.mp hmem
      exact ⟨pr0, hm.1, List.mem_of_elem_eq_true hm.2⟩
  · rintro ⟨pr, hpr, htok⟩
    unfold declare
    rcases hf : provided.filter
        (fun pr => (specToks (effRequiredL parents)).contains pr.1.tok) with _ | ⟨pr0, rest⟩
    · exfalso
      have := List.filter_eq_nil_iff.mp hf pr hpr
      exact this (List.elem_eq_true_of_mem htok)
    · refine ⟨pr0.1.tok, ?_⟩
      rw [hf]

/-- C7: inheritance transitivity: if P1 is an ancestor of P2 and the
target already holds a successful P1 implementation, then
implementing P2 with a member map supplying exactly the effective
required tokens of P2 that are not effective required tokens of P1
succeeds. -/
theorem C7_inheritance_transitivity {F : Type} (st st1 : EngineState F)
    (t : TypeId) (p1 p2 : Protocol F) (m1 m : List (Token × F))
    (h1 : implement st t p1 m1 = (st1, none))
    (hanc : p1.pid ∈ (ancestors p2).map Protocol.pid)
    (hfresh : assoc st1.ledger (t, p2.pid) = none)
    (hsup : ∀ tok ∈ specToks (effRequired p2),
      ((assoc m tok).isSome = true ↔ tok ∉ specToks (effRequired p1)))
    (_hexact : ∀ e ∈ m, e.1 ∈ specToks (effRequired p2) ∧
      e.1 ∉ specToks (effRequired p1)) :
    (implement st1 t p2 m).2 = none := by
  rw [implement_snd_none_iff st1 t p2 m hfresh]
  intro s hs
  by_cases hmem : s.tok ∈ specToks (effRequired p1)
  · right
    obtain ⟨habs1, hmiss1, hst1⟩ := implement_success_elim h1
    obtain ⟨q, hq, hqpid⟩ := List.mem_map.mp hanc
    apply findSome?_isSome_of_mem (ancestors p2) _ q hq
    have hk : ((t, q.pid) : TypeId × Nat) = (t, p1.pid) := by rw [hqpid]
    have hled : assoc st1.ledger (t, q.pid) =
        some (.installed (mkBinding (permitState st t p1) t p1 m1)) := by
      rw [hk, hst1, ledger_commit, assoc_cons_self]
    show (match assoc st1.ledger (t, q.pid) with
      | some (.installed b) => assoc b s.tok
      | _ => none).isSome = true
    rw [hled]
    show (assoc (mkBinding (permitState st t p1) t p1 m1) s.tok).isSome = true
    obtain ⟨s1, hs1, hs1tok⟩ := List.mem_map.mp hmem
    rw [← hs1tok]
    exact mkBinding_covers _ t p1 m1 (missing_empty_resolve _ t p1 m1 hmiss1) s1 hs1
  · left
    exact (hsup s.tok (List.mem_map.mpr ⟨s, hs, rfl⟩)).mpr hmem

/-- Witness for C7: PW2 extends PW1; after implementing PW1 on type 0,
implementing PW2 with only PW2's own required token succeeds. -/
theorem C7_inheritance_witness :
    (implement (implement EngineState.empty 0 PW1 [(0, 7)]).1 0 PW2 [(1, 9)]).2 = none :=
  C7_inheritance_transitivity EngineState.empty
    (implement EngineState.empty 0 PW1 [(0, 7)]).1 0 PW1 PW2 [(0, 7)] [(1, 9)]
    (by decide) (by decide) (by decide) (by decide) (by decide)

end Protocols
